import Mathlib

namespace Arbeix

/-! # Data model

Shallow embedding of the parsed-XML tree model of `node.ts`.  A JS `Item`
is a record with at most one "real" tag key (mapping to the ordered child
item array), an optional `:@` attribute record and an optional `#text`
payload; in practice an item is either an element (tag + children +
optional attributes) or a text leaf.  JS object identity is modelled away:
every `Node` wraps exactly one `Item` and the `children`/`contained`
arrays are kept in 1:1 correspondence by every operation, so a node is
represented by its item (a pure tree value). -/

/-- JS attribute record (`Record<string, string>`): an insertion-ordered
association list.  A JS object cannot hold duplicate keys, so every list
reachable from the operations below is duplicate-free. -/
abbrev AttrMap := List (String × String)

/-- Read a key from the attribute record (`attrib[key]`): the record
holds at most one entry per key, so the first match is the value. -/
def AttrMap.get : AttrMap → String → Option String
  | [], _ => none
  | (k1, v1) :: a, k => if k1 = k then some v1 else AttrMap.get a k

/-- `attrib[key] = val`: overwrite the entry in place when the key is
present (JS keeps the key's insertion position), append otherwise. -/
def AttrMap.set (a : AttrMap) (k v : String) : AttrMap :=
  if a.any (fun p => p.1 = k) then a.map (fun p => if p.1 = k then (k, v) else p)
  else a ++ [(k, v)]

/-- `delete attrib[key]`. -/
def AttrMap.del (a : AttrMap) (k : String) : AttrMap :=
  a.filter (fun p => p.1 ≠ k)

/-- The parsed-XML `Item`: an element with one real tag key mapping to the
ordered child list, or a `#text` leaf; either may carry a `:@` attribute
record (`none` models the `:@` key being absent from the JS object). -/
inductive Item where
  | elem (tag : String) (attr : Option AttrMap) (children : List Item)
  | text (attr : Option AttrMap) (txt : String)

mutual

/-- Structural (deep) equality test for items. -/
def Item.beq : Item → Item → Bool
  | .elem t a cs, .elem t' a' cs' => t = t' && a = a' && Item.beqList cs cs'
  | .text a s, .text a' s' => a = a' && s = s'
  | _, _ => false

/-- Structural equality test for item lists. -/
def Item.beqList : List Item → List Item → Bool
  | [], [] => true
  | x :: xs, y :: ys => Item.beq x y && Item.beqList xs ys
  | _, _ => false

end

mutual

theorem Item.beq_refl : ∀ a : Item, Item.beq a a = true
  | .elem t a cs => by simp [Item.beq, Item.beqList_refl cs]
  | .text a s => by simp [Item.beq]

theorem Item.beqList_refl : ∀ xs : List Item, Item.beqList xs xs = true
  | [] => by simp [Item.beqList]
  | x :: xs => by simp [Item.beqList, Item.beq_refl x, Item.beqList_refl xs]

end

mutual

theorem Item.beq_eq : ∀ a b : Item, Item.beq a b = true → a = b
  | .elem t a cs, .elem t' a' cs', h => by
      simp only [Item.beq, Bool.and_eq_true, decide_eq_true_eq] at h
      obtain ⟨⟨ht, ha⟩, hcs⟩ := h
      rw [ht, ha, Item.beqList_eq cs cs' hcs]
  | .text a s, .text a' s', h => by
      simp only [Item.beq, Bool.and_eq_true, decide_eq_true_eq] at h
      rw [h.1, h.2]
  | .elem _ _ _, .text _ _, h => by simp [Item.beq] at h
  | .text _ _, .elem _ _ _, h => by simp [Item.beq] at h

theorem Item.beqList_eq : ∀ xs ys : List Item, Item.beqList xs ys = true → xs = ys
  | [], [], _ => rfl
  | x :: xs, y :: ys, h => by
      simp only [Item.beqList, Bool.and_eq_true] at h
      rw [Item.beq_eq x y h.1, Item.beqList_eq xs ys h.2]
  | [], _ :: _, h => by simp [Item.beqList] at h
  | _ :: _, [], h => by simp [Item.beqList] at h

end

instance Item.decEq : DecidableEq Item := fun a b =>
  decidable_of_iff (Item.beq a b = true)
    ⟨Item.beq_eq a b, fun h => h ▸ Item.beq_refl a⟩

/-- `realKey`: the node's resolved tag name (`""` for a text item, whose
only keys are the reserved markers). -/
def Item.name : Item → String
  | .elem t _ _ => t
  | .text _ _ => ""

/-- The raw `:@` slot of the item. -/
def Item.attrOf : Item → Option AttrMap
  | .elem _ a _ => a
  | .text a _ => a

/-- `get attrib()`: `this.item[":@"] ?? {}`. -/
def Item.attrib (it : Item) : AttrMap := (Item.attrOf it).getD []

/-- Replace the `:@` slot. -/
def Item.withAttr : Item → Option AttrMap → Item
  | .elem t _ cs, a => .elem t a cs
  | .text _ s, a => .text a s

/-- `contained` / the constructor's `item[name] || []`: the ordered child
item array (empty for a text leaf). -/
def Item.children : Item → List Item
  | .elem _ _ cs => cs
  | .text _ _ => []

/-- Replace the child item array (used to model in-place mutation of
`contained` together with the 1:1 `children` node list).  A text leaf has
no child array, and no operation below ever rewrites one's children. -/
def Item.withChildren : Item → List Item → Item
  | .elem t a _, cs => .elem t a cs
  | .text a s, _ => .text a s

/-- `setAttrib(key, val)`: create the `:@` record on demand, then write. -/
def Item.setAttrib (it : Item) (k v : String) : Item :=
  it.withAttr (some (AttrMap.set it.attrib k v))

/-- `deleteAttrib(key)`: create the `:@` record on demand, then delete. -/
def Item.deleteAttrib (it : Item) (k : String) : Item :=
  it.withAttr (some (AttrMap.del it.attrib k))

/-- `single(key)`: `this.children.find((i) => i.name == key)` — `none`
models the `undefined` produced when no child matches (the non-null
assertion in the source does not raise). -/
def Item.single (it : Item) (key : String) : Option Item :=
  it.children.find? (fun c => c.name = key)

/-- Possible outcomes of `dig`: a node, the `undefined` value returned
when the final lookup misses, or the TypeError raised when an earlier
lookup misses and `single` is then invoked on `undefined`. -/
inductive DigOut where
  | node (it : Item)
  | undef
  | crash
deriving DecidableEq

/-- `dig(...keys)`: repeated `single`, left to right.  When a lookup
misses, the loop either returns the `undefined` value (miss on the last
key) or raises a TypeError at the following step. -/
def Item.dig : Item → List String → DigOut
  | it, [] => .node it
  | it, k :: ks =>
    match Item.single it k with
    | some c => Item.dig c ks
    | none => if ks.isEmpty then .undef else .crash

/-- `all(key)`: every child whose resolved tag equals `key`, in order. -/
def Item.all (it : Item) (key : String) : List Item :=
  it.children.filter (fun c => c.name = key)

/-- `clear()`: empty both the child item array and the node list. -/
def Item.clear (it : Item) : Item := it.withChildren []

example : Item.single (.elem "t" none [.text none "x", .elem "a" none []]) "a"
    = some (.elem "a" none []) := by decide

example : Item.dig (.elem "t" none []) ["a", "b"] = .crash := by decide

/-! # Formula rewriting

`FORMULA_REFERENCE = /(?<=[\[:])\.([A-Z]+)(\d+)(?=[\]:])/g` and
`formula.replaceAll(FORMULA_REFERENCE, cb)`.  A match is a dot, a maximal
nonempty run of `A`–`Z`, a maximal nonempty run of digits, with the
character before the dot being `[` or `:` (lookbehind) and the character
after the digits being `]` or `:` (lookahead); the surrounding characters
are not consumed.  Since letters, digits and the delimiters are pairwise
disjoint character classes, the regex backtracking is deterministic and
`replaceAll` is a single left-to-right scan. -/

/-- The class `[A-Z]` of the regex (ASCII 65–90). -/
def isUpperAZ (c : Char) : Bool := 65 ≤ c.toNat && c.toNat ≤ 90

/-- The class `\d` = `[0-9]` of the regex (ASCII 48–57). -/
def isDigit09 (c : Char) : Bool := 48 ≤ c.toNat && c.toNat ≤ 57

/-- The lookbehind class `[\[:]`. -/
def isRefOpen (c : Char) : Bool := c = '[' || c = ':'

/-- The lookahead class `[\]:]`. -/
def isRefClose (c : Char) : Bool := c = ']' || c = ':'

/-- The lookbehind applied to the character left of the scan position
(no match at position 0, where no such character exists). -/
def prevOpen : Option Char → Bool
  | some p => isRefOpen p
  | none => false

/-- `parseInt` on a nonempty all-digit capture group. -/
def digitsVal (ds : List Char) : Nat :=
  ds.foldl (fun a c => a * 10 + (c.toNat - 48)) 0

/-- Try to read `([A-Z]+)(\d+)(?=[\]:])` at the head of `rest` (the text
after a candidate dot): returns the two capture groups and the unconsumed
remainder (whose head realised the lookahead).  The greedy quantifiers
are deterministic because letters, digits and the close class are
pairwise disjoint. -/
def splitRef (rest : List Char) : Option (List Char × List Char × List Char) :=
  let letters := rest.takeWhile isUpperAZ
  let r1 := rest.dropWhile isUpperAZ
  let digits := r1.takeWhile isDigit09
  let r2 := r1.dropWhile isDigit09
  if letters.isEmpty then none
  else if digits.isEmpty then none
  else
    match r2.head? with
    | some a => if isRefClose a then some (letters, digits, r2) else none
    | none => none

theorem splitRef_some {rest l d r2 : List Char} (h : splitRef rest = some (l, d, r2)) :
    l = rest.takeWhile isUpperAZ ∧
    d = (rest.dropWhile isUpperAZ).takeWhile isDigit09 ∧
    r2 = (rest.dropWhile isUpperAZ).dropWhile isDigit09 := by
  simp only [splitRef] at h
  split at h
  · simp at h
  · split at h
    · simp at h
    · split at h
      · split at h
        · simp only [Option.some.injEq, Prod.mk.injEq] at h
          exact ⟨h.1.symm, h.2.1.symm, h.2.2.symm⟩
        · simp at h
      · simp at h

/-- One left-to-right `replaceAll` pass.  `prev` is the character of the
source string immediately before the current scan position (`none` at
position 0).  A replacement advances the scan to just after the matched
digits (so the lookahead character can serve as the next lookbehind);
`skip` counts source characters that belong to the match just replaced
and are still to be stepped over (0 in normal scanning) — stepping them
one by one keeps the recursion structural and keeps `prev` pointing at
the character just left of the scan position. -/
def scanRefs (fromIndex adjust : Int) : Nat → Option Char → List Char → List Char
  | _, _, [] => []
  | skip+1, _, c :: rest => scanRefs fromIndex adjust skip (some c) rest
  | 0, prev, c :: rest =>
    if prevOpen prev && c = '.' then
      match splitRef rest with
      | some (letters, digits, _) =>
        (if (digitsVal digits : Int) - 1 > fromIndex
          then '.' :: (letters ++ (toString ((digitsVal digits : Int) + adjust)).toList)
          else '.' :: (letters ++ digits))
          ++ scanRefs fromIndex adjust (letters.length + digits.length) (some c) rest
      | none => c :: scanRefs fromIndex adjust 0 (some c) rest
    else c :: scanRefs fromIndex adjust 0 (some c) rest

/-- `formula.replaceAll(FORMULA_REFERENCE, (match, col, row) => ...)`. -/
def replaceRefs (fromIndex adjust : Int) (s : String) : String :=
  String.mk (scanRefs fromIndex adjust 0 none s.toList)

example :
    replaceRefs 3 1 "of:=[.A5]+[.B2]" = "of:=[.A6]+[.B2]" := by decide

example :
    replaceRefs 3 1 "[.A5:.B12]" = "[.A6:.B13]" := by decide

example :
    replaceRefs 3 1 ".A5+.B2" = ".A5+.B2" := by decide

/-- `setType(type)`: write both value-type attributes. -/
def Cell.setType (it : Item) (ty : String) : Item :=
  (it.setAttrib "office:value-type" ty).setAttrib "calcext:value-type" ty

/-- `setFormula(formula, type?)`: optional `setType`, then set the
formula attribute, delete both cached value attributes and clear the
cell's content. -/
def Cell.setFormula (it : Item) (ty? : Option String) (f : String) : Item :=
  Item.clear
    ((((match ty? with
        | some ty => Cell.setType it ty
        | none => it).setAttrib "table:formula" f).deleteAttrib
      "office:value").deleteAttrib "office:string-value")

/-- `adjustFormulae(fromIndex, adjust)`: rewrite the formula attribute
through the reference regex; `if (formula)` is JS truthiness, so a
missing or empty formula is skipped, and an unchanged rewrite returns
before any mutation. -/
def Cell.adjustFormulae (it : Item) (fromIndex adjust : Int) : Item :=
  match AttrMap.get it.attrib "table:formula" with
  | some f =>
    if f = "" then it
    else
      let replaced := replaceRefs fromIndex adjust f
      if f = replaced then it
      else Cell.setFormula it none replaced
  | none => it

/-! ## The rewrite is the identity when no reference is in range -/

/-- Does the scan meet a match whose row satisfies `row - 1 > fromIndex`?
Mirrors the recursion of `scanRefs` exactly. -/
def anyShiftable (fromIndex : Int) : Nat → Option Char → List Char → Bool
  | _, _, [] => false
  | skip+1, _, c :: rest => anyShiftable fromIndex skip (some c) rest
  | 0, prev, c :: rest =>
    if prevOpen prev && c = '.' then
      match splitRef rest with
      | some (letters, digits, _) =>
        decide ((digitsVal digits : Int) - 1 > fromIndex)
          || anyShiftable fromIndex (letters.length + digits.length) (some c) rest
      | none => anyShiftable fromIndex 0 (some c) rest
    else anyShiftable fromIndex 0 (some c) rest

/-- The character just left of the scan position after stepping over `s`
from a position whose left neighbour was `prev`. -/
def lastCharOr (prev : Option Char) : List Char → Option Char
  | [] => prev
  | c :: cs => lastCharOr (some c) cs

theorem lastCharOr_cons (prev : Option Char) (y : Char) (ys : List Char) :
    lastCharOr prev (y :: ys) = lastCharOr (some y) ys := rfl

theorem scanRefs_skip (fI adj : Int) :
    ∀ (xs t : List Char) (prev : Option Char),
      scanRefs fI adj xs.length prev (xs ++ t) =
        scanRefs fI adj 0 (lastCharOr prev xs) t := by
  intro xs
  induction xs with
  | nil => intro t prev; rfl
  | cons y ys ih =>
    intro t prev
    show scanRefs fI adj ys.length (some y) (ys ++ t) = _
    rw [ih, lastCharOr_cons]

theorem anyShiftable_skip (fI : Int) :
    ∀ (xs t : List Char) (prev : Option Char),
      anyShiftable fI xs.length prev (xs ++ t) =
        anyShiftable fI 0 (lastCharOr prev xs) t := by
  intro xs
  induction xs with
  | nil => intro t prev; rfl
  | cons y ys ih =>
    intro t prev
    show anyShiftable fI ys.length (some y) (ys ++ t) = _
    rw [ih, lastCharOr_cons]

theorem takeWhile_append_dropWhile_self (p : Char → Bool) (l : List Char) :
    l.takeWhile p ++ l.dropWhile p = l :=
  List.takeWhile_append_dropWhile p l

theorem splitRef_decomp {rest l d r2 : List Char}
    (h : splitRef rest = some (l, d, r2)) : rest = l ++ (d ++ r2) := by
  obtain ⟨h1, h2, h3⟩ := splitRef_some h
  rw [h1, h2, h3, takeWhile_append_dropWhile_self, takeWhile_append_dropWhile_self]

theorem scanRefs_id (fI adj : Int) :
    ∀ (n : Nat) (s : List Char), s.length ≤ n → ∀ prev : Option Char,
      anyShiftable fI 0 prev s = false → scanRefs fI adj 0 prev s = s := by
  intro n
  induction n with
  | zero =>
    intro s hs prev _
    rw [List.length_eq_zero.mp (Nat.le_zero.mp hs)]
    rfl
  | succ n ih =>
    intro s hs prev h
    cases s with
    | nil => rfl
    | cons c rest =>
      have hrn : rest.length ≤ n := by simpa using hs
      cases hcb : (prevOpen prev && decide (c = '.')) with
      | false =>
        simp only [scanRefs, anyShiftable, hcb, Bool.false_eq_true, if_false] at h ⊢
        rw [ih rest hrn (some c) h]
      | true =>
        cases hm : splitRef rest with
        | none =>
          simp only [scanRefs, anyShiftable, hcb, if_true, hm] at h ⊢
          rw [ih rest hrn (some c) h]
        | some ldr =>
          obtain ⟨l, d, r2⟩ := ldr
          have hdec := splitRef_decomp hm
          simp only [scanRefs, anyShiftable, hcb, if_true, hm, Bool.or_eq_false_iff,
            decide_eq_false_iff_not, not_lt] at h ⊢
          obtain ⟨hle, hrest⟩ := h
          have hr2 : r2.length ≤ n := by
            have : rest.length = l.length + (d.length + r2.length) := by
              rw [hdec]; simp
            omega
          have hskip : l.length + d.length = (l ++ d).length := by simp
          have happ : l ++ (d ++ r2) = (l ++ d) ++ r2 := by simp
          rw [if_neg (by omega), hdec, happ, hskip, scanRefs_skip]
          rw [hdec, happ, hskip, anyShiftable_skip] at hrest
          rw [ih r2 hr2 _ hrest]
          have hc : c = '.' := by
            simp only [Bool.and_eq_true, decide_eq_true_eq] at hcb
            exact hcb.2
          rw [hc]
          simp

/-! ## Attribute record lemmas -/

theorem AttrMap.get_set_self (k v : String) :
    ∀ a : AttrMap, AttrMap.get (AttrMap.set a k v) k = some v := by
  intro a
  unfold AttrMap.set
  by_cases h : a.any (fun p => p.1 = k)
  · rw [if_pos h]
    induction a with
    | nil => simp at h
    | cons p a' ih =>
      rcases p with ⟨k1, v1⟩
      rw [List.map_cons]
      by_cases hp : k1 = k
      · rw [if_pos (show (k1, v1).1 = k from hp)]
        show (if k = k then some v else AttrMap.get _ k) = some v
        rw [if_pos rfl]
      · rw [if_neg (show ¬(k1, v1).1 = k from hp)]
        show (if k1 = k then some v1 else AttrMap.get (List.map _ a') k) = some v
        rw [if_neg hp]
        apply ih
        rcases List.any_eq_true.mp h with ⟨q, hq, hqk⟩
        rcases List.mem_cons.mp hq with hq1 | hq2
        · exact absurd (by simpa [hq1] using hqk) hp
        · exact List.any_eq_true.mpr ⟨q, hq2, hqk⟩
  · rw [if_neg h]
    induction a with
    | nil => show (if k = k then some v else _) = some v
             rw [if_pos rfl]
    | cons p a' ih =>
      rcases p with ⟨k1, v1⟩
      have h1 : ¬(k1 = k) := by
        intro hk
        exact h (List.any_eq_true.mpr ⟨(k1, v1), List.mem_cons_self _ _, by simpa using hk⟩)
      have h' : ¬(a'.any (fun q => q.1 = k) = true) := by
        intro hk
        rcases List.any_eq_true.mp hk with ⟨q, hq, hqk⟩
        exact h (List.any_eq_true.mpr ⟨q, List.mem_cons_of_mem _ hq, hqk⟩)
      show (if k1 = k then some v1 else AttrMap.get (a' ++ [(k, v)]) k) = some v
      rw [if_neg h1]
      exact ih h'

theorem AttrMap.get_set_ne (k v k' : String) (hne : k' ≠ k) :
    ∀ a : AttrMap, AttrMap.get (AttrMap.set a k v) k' = AttrMap.get a k' := by
  intro a
  unfold AttrMap.set
  by_cases h : a.any (fun p => p.1 = k)
  · rw [if_pos h]
    clear h
    induction a with
    | nil => rfl
    | cons p a' ih =>
      rcases p with ⟨k1, v1⟩
      rw [List.map_cons]
      by_cases hp : k1 = k
      · rw [if_pos (show (k1, v1).1 = k from hp)]
        show (if k = k' then some v else AttrMap.get _ k') =
          (if k1 = k' then some v1 else AttrMap.get a' k')
        rw [if_neg (Ne.symm hne), if_neg (fun hh : k1 = k' => hne (hp ▸ hh ▸ rfl))]
        exact ih
      · rw [if_neg (show ¬(k1, v1).1 = k from hp)]
        show (if k1 = k' then some v1 else AttrMap.get _ k') =
          (if k1 = k' then some v1 else AttrMap.get a' k')
        by_cases hk' : k1 = k'
        · rw [if_pos hk', if_pos hk']
        · rw [if_neg hk', if_neg hk']
          exact ih
  · rw [if_neg h]
    clear h
    induction a with
    | nil => show (if k = k' then some v else AttrMap.get [] k') = AttrMap.get [] k'
             rw [if_neg (Ne.symm hne)]
    | cons p a' ih =>
      rcases p with ⟨k1, v1⟩
      show (if k1 = k' then some v1 else AttrMap.get (a' ++ [(k, v)]) k') =
        (if k1 = k' then some v1 else AttrMap.get a' k')
      by_cases hk' : k1 = k'
      · rw [if_pos hk', if_pos hk']
      · rw [if_neg hk', if_neg hk']
        exact ih

theorem AttrMap.get_del_ne (k k' : String) (hne : k' ≠ k) :
    ∀ a : AttrMap, AttrMap.get (AttrMap.del a k) k' = AttrMap.get a k' := by
  intro a
  induction a with
  | nil => rfl
  | cons p a' ih =>
    rcases p with ⟨k1, v1⟩
    unfold AttrMap.del at ih ⊢
    rw [List.filter_cons]
    by_cases hp : k1 = k
    · have hcond : (decide ¬(k1, v1).1 = k) = false := by simpa using hp
      rw [hcond]
      show AttrMap.get _ k' = (if k1 = k' then some v1 else AttrMap.get a' k')
      rw [if_neg (fun hh : k1 = k' => hne (hp ▸ hh ▸ rfl))]
      exact ih
    · have hcond : (decide ¬(k1, v1).1 = k) = true := by simpa using hp
      rw [hcond]
      show (if k1 = k' then some v1 else AttrMap.get _ k') =
        (if k1 = k' then some v1 else AttrMap.get a' k')
      by_cases hk' : k1 = k'
      · rw [if_pos hk', if_pos hk']
      · rw [if_neg hk', if_neg hk']
        exact ih

theorem Item.attrOf_withAttr (it : Item) (a : Option AttrMap) : (it.withAttr a).attrOf = a := by
  cases it <;> rfl

theorem Item.attrib_withAttr (it : Item) (a : AttrMap) : (it.withAttr (some a)).attrib = a := by
  cases it <;> rfl

theorem Item.attrib_withChildren (it : Item) (cs : List Item) :
    (it.withChildren cs).attrib = it.attrib := by
  cases it <;> rfl

theorem Item.attrib_setAttrib (it : Item) (k v : String) :
    (it.setAttrib k v).attrib = AttrMap.set it.attrib k v := by
  cases it <;> rfl

theorem Item.attrib_deleteAttrib (it : Item) (k : String) :
    (it.deleteAttrib k).attrib = AttrMap.del it.attrib k := by
  cases it <;> rfl

theorem Cell.setFormula_get (it : Item) (f : String) :
    AttrMap.get (Cell.setFormula it none f).attrib "table:formula" = some f := by
  unfold Cell.setFormula
  rw [Item.clear, Item.attrib_withChildren, Item.attrib_deleteAttrib,
    Item.attrib_deleteAttrib, Item.attrib_setAttrib]
  rw [AttrMap.get_del_ne _ _ (by decide), AttrMap.get_del_ne _ _ (by decide),
    AttrMap.get_set_self]

/-- `adjustFormulae` is the identity on a cell none of whose formula
references satisfies `row - 1 > fromIndex`: the rewrite reproduces the
formula verbatim and the early `formula === replaced` return fires
(cells without a formula, or with the falsy empty formula, are skipped
the same way). -/
theorem Cell.adjustFormulae_id (c : Item) (fromIndex adjust : Int)
    (h : ∀ f, AttrMap.get c.attrib "table:formula" = some f →
      anyShiftable fromIndex 0 none f.toList = false) :
    Cell.adjustFormulae c fromIndex adjust = c := by
  unfold Cell.adjustFormulae
  cases hf : AttrMap.get c.attrib "table:formula" with
  | none => rfl
  | some f =>
    have hid := scanRefs_id fromIndex adjust f.toList.length f.toList le_rfl none (h f hf)
    show (if f = "" then c
      else
        let replaced := replaceRefs fromIndex adjust f
        if f = replaced then c else Cell.setFormula c none replaced) = c
    by_cases he : f = ""
    · rw [if_pos he]
    · have hrepl : replaceRefs fromIndex adjust f = f := by
        unfold replaceRefs
        rw [hid]
        cases f
        rfl
      rw [if_neg he]
      simp [hrepl]

/-- C8: a cell whose formula attribute contains no relative reference
with row number minus one strictly greater than `fromRowIndex` is left
completely unchanged by `adjustFormulae(fromRowIndex, delta)`: formula
attribute, every other attribute (`office:value`,
`office:string-value`, ...) and the cell's child content are untouched. -/
theorem claim_C8 (c : Item) (fromIndex adjust : Int)
    (h : ∀ f, AttrMap.get c.attrib "table:formula" = some f →
      anyShiftable fromIndex 0 none f.toList = false) :
    Cell.adjustFormulae c fromIndex adjust = c :=
  Cell.adjustFormulae_id c fromIndex adjust h

/-- Concrete cell for the C8 witness: both references (`.A2`, `.B1`) sit
at or below the boundary row 5, and the cell carries a cached value and
child content that must survive. -/
def C8cell : Item :=
  .elem "table:table-cell"
    (some [("table:formula", "of:=[.A2]+[.B1]"), ("office:value", "7")])
    [.text none "7"]

theorem claim_C8_witness :
    Cell.adjustFormulae C8cell 5 1 = C8cell ∧
      anyShiftable 5 0 none "of:=[.A2]+[.B1]".toList = false := by
  constructor
  · apply claim_C8 C8cell 5 1
    intro f hf
    have h0 : (some "of:=[.A2]+[.B1]" : Option String) = some f := hf
    cases Option.some.inj h0
    decide
  · decide

/-! ## C1: the rewrite acts exactly on the in-context references

A formula is presented as an interleaving of reference tokens
(`.`‑column‑letters‑row‑digits, sitting between an opening `[`/`:` and a
closing `]`/`:`) and literal stretches that contain no dot.  The theorem
shows the scan reproduces every literal stretch and every out-of-range
reference verbatim and rewrites exactly the in-range references. -/

theorem digit_not_upper {c : Char} (h : isDigit09 c = true) : isUpperAZ c = false := by
  simp only [isDigit09, Bool.and_eq_true, decide_eq_true_eq] at h
  simp only [isUpperAZ, Bool.and_eq_false_iff, decide_eq_false_iff_not, not_le]
  omega

theorem close_not_digit {c : Char} (h : isRefClose c = true) : isDigit09 c = false := by
  simp only [isRefClose, Bool.or_eq_true, decide_eq_true_eq] at h
  rcases h with h | h <;> rw [h] <;> decide

theorem takeWhile_append_all (p : Char → Bool) :
    ∀ (l t : List Char), (∀ c ∈ l, p c = true) →
      (∀ a, t.head? = some a → p a = false) →
      (l ++ t).takeWhile p = l ∧ (l ++ t).dropWhile p = t := by
  intro l
  induction l with
  | nil =>
    intro t _ ht
    cases t with
    | nil => exact ⟨rfl, rfl⟩
    | cons a t' =>
      have ha := ht a rfl
      constructor
      · simp [List.takeWhile_cons, ha]
      · simp [List.dropWhile_cons, ha]
  | cons c cs ih =>
    intro t hl ht
    have hc : p c = true := hl c (List.mem_cons_self c cs)
    have hcs := ih t (fun x hx => hl x (List.mem_cons_of_mem c hx)) ht
    constructor
    · simp [List.takeWhile_cons, hc, hcs.1]
    · simp [List.dropWhile_cons, hc, hcs.2]

theorem splitRef_build {col ds t : List Char}
    (hcol0 : col ≠ []) (hcol : ∀ c ∈ col, isUpperAZ c = true)
    (hds0 : ds ≠ []) (hds : ∀ c ∈ ds, isDigit09 c = true)
    {a : Char} (hta : t.head? = some a) (hac : isRefClose a = true) :
    splitRef (col ++ (ds ++ t)) = some (col, ds, t) := by
  have h1 := takeWhile_append_all isUpperAZ col (ds ++ t) hcol (fun b hb => by
    cases ds with
    | nil => exact absurd rfl hds0
    | cons d0 ds' =>
      simp only [List.cons_append, List.head?_cons, Option.some.injEq] at hb
      rw [← hb]
      exact digit_not_upper (hds d0 (List.mem_cons_self _ _)))
  have h2 := takeWhile_append_all isDigit09 ds t hds (fun b hb => by
    rw [hta] at hb
    rw [← Option.some.inj hb]
    exact close_not_digit hac)
  unfold splitRef
  simp only [h1.1, h1.2, h2.1, h2.2]
  rw [if_neg (by simpa using hcol0), if_neg (by simpa using hds0), hta]
  show (if isRefClose a = true then some (col, ds, t) else none) = some (col, ds, t)
  rw [if_pos hac]

/-- A formula piece: a literal stretch or a relative reference
`.<col letters><row digits>`. -/
inductive Seg where
  | lit (s : List Char)
  | ref (col ds : List Char)

/-- The characters a piece contributes to the formula. -/
def Seg.render : Seg → List Char
  | .lit s => s
  | .ref col ds => '.' :: (col ++ ds)

/-- The whole formula of a piece list. -/
def renderSegs (ps : List Seg) : List Char := (ps.map Seg.render).flatten

/-- What the claim says a piece becomes: literals and column letters
verbatim, and the row number replaced by row + delta exactly when
row − 1 > fromIndex. -/
def Seg.renderShifted (fromIndex adjust : Int) : Seg → List Char
  | .lit s => s
  | .ref col ds =>
    if (digitsVal ds : Int) - 1 > fromIndex
    then '.' :: (col ++ (toString ((digitsVal ds : Int) + adjust)).toList)
    else '.' :: (col ++ ds)

/-- The claimed rewrite of the whole formula. -/
def renderShiftedSegs (fromIndex adjust : Int) (ps : List Seg) : List Char :=
  (ps.map (Seg.renderShifted fromIndex adjust)).flatten

/-- A literal stretch the scan copies verbatim: wherever a dot sits
right of a `[` or `:`, the next character exists within the stretch and
is not an uppercase letter, so no reference match can start there. -/
def litOk (prev : Option Char) : List Char → Bool
  | [] => true
  | c :: cs =>
    if prevOpen prev && c = '.' then
      match cs with
      | d :: _ => !isUpperAZ d && litOk (some c) cs
      | [] => false
    else litOk (some c) cs

theorem splitRef_not_upper {d : Char} (rest : List Char) (hd : isUpperAZ d = false) :
    splitRef (d :: rest) = none := by
  simp [splitRef, List.takeWhile_cons, hd]

/-- Well-formedness of a piece list with respect to the character just
left of it: literal stretches start no reference match, and every
reference is nonempty, made of the right character classes, preceded by
`[`/`:` and followed by `]`/`:`. -/
def wfSegs (prev : Option Char) : List Seg → Bool
  | [] => true
  | .lit s :: rest => litOk prev s && wfSegs (lastCharOr prev s) rest
  | .ref col ds :: rest =>
    prevOpen prev &&
      (!col.isEmpty &&
        (col.all isUpperAZ &&
          (!ds.isEmpty &&
            (ds.all isDigit09 &&
              ((match (renderSegs rest).head? with
                | some a => isRefClose a
                | none => false) &&
                wfSegs (lastCharOr (some '.') (col ++ ds)) rest)))))

theorem scanRefs_zero_cons (fI adj : Int) (prev : Option Char) (c : Char)
    (rest : List Char) :
    scanRefs fI adj 0 prev (c :: rest) =
      if prevOpen prev && c = '.' then
        match splitRef rest with
        | some (letters, digits, _) =>
          (if (digitsVal digits : Int) - 1 > fI
            then '.' :: (letters ++ (toString ((digitsVal digits : Int) + adj)).toList)
            else '.' :: (letters ++ digits))
            ++ scanRefs fI adj (letters.length + digits.length) (some c) rest
        | none => c :: scanRefs fI adj 0 (some c) rest
      else c :: scanRefs fI adj 0 (some c) rest := rfl

theorem scanRefs_lit (fI adj : Int) :
    ∀ (s t : List Char) (prev : Option Char), litOk prev s = true →
      scanRefs fI adj 0 prev (s ++ t) = s ++ scanRefs fI adj 0 (lastCharOr prev s) t := by
  intro s
  induction s with
  | nil => intro t prev _; rfl
  | cons c cs ih =>
    intro t prev h
    simp only [litOk] at h
    show scanRefs fI adj 0 prev (c :: (cs ++ t)) = _
    by_cases hc : (prevOpen prev && decide (c = '.')) = true
    · rw [if_pos hc] at h
      cases cs with
      | nil => exact absurd h (by simp)
      | cons d cs2 =>
        simp only [Bool.and_eq_true] at h
        have hd : isUpperAZ d = false := by simpa using h.1
        rw [scanRefs_zero_cons, if_pos hc,
          show (d :: cs2) ++ t = d :: (cs2 ++ t) from List.cons_append d cs2 t,
          splitRef_not_upper (cs2 ++ t) hd]
        show c :: scanRefs fI adj 0 (some c) (d :: (cs2 ++ t)) = _
        rw [show d :: (cs2 ++ t) = (d :: cs2) ++ t from (List.cons_append d cs2 t).symm,
          ih t (some c) h.2, lastCharOr_cons]
        rfl
    · rw [if_neg hc] at h
      rw [scanRefs_zero_cons, if_neg hc, ih t (some c) h, lastCharOr_cons]
      rfl

theorem scanRefs_ref (fI adj : Int) (col ds t : List Char) (prev : Option Char)
    (hcol0 : col ≠ []) (hcol : ∀ c ∈ col, isUpperAZ c = true)
    (hds0 : ds ≠ []) (hds : ∀ c ∈ ds, isDigit09 c = true)
    {a : Char} (hta : t.head? = some a) (hac : isRefClose a = true)
    (hprev : prevOpen prev = true) :
    scanRefs fI adj 0 prev (('.' :: (col ++ ds)) ++ t) =
      Seg.renderShifted fI adj (.ref col ds) ++
        scanRefs fI adj 0 (lastCharOr (some '.') (col ++ ds)) t := by
  have hsplit := splitRef_build hcol0 hcol hds0 hds hta hac
  have happ : (col ++ ds) ++ t = col ++ (ds ++ t) := by simp
  show scanRefs fI adj 0 prev ('.' :: ((col ++ ds) ++ t)) = _
  rw [happ]
  simp only [scanRefs, hprev, decide_True, Bool.and_true, if_true, hsplit]
  rw [show col.length + ds.length = (col ++ ds).length by simp, ← happ, scanRefs_skip]
  by_cases hsh : (digitsVal ds : Int) - 1 > fI
  · rw [if_pos hsh]
    simp only [Seg.renderShifted, if_pos hsh]
  · rw [if_neg hsh]
    simp only [Seg.renderShifted, if_neg hsh]

theorem scanRefs_segs (fI adj : Int) :
    ∀ (ps : List Seg) (prev : Option Char), wfSegs prev ps = true →
      scanRefs fI adj 0 prev (renderSegs ps) = renderShiftedSegs fI adj ps := by
  intro ps
  induction ps with
  | nil => intro prev _; rfl
  | cons sg rest ih =>
    intro prev h
    cases sg with
    | lit s =>
      simp only [wfSegs, Bool.and_eq_true] at h
      show scanRefs fI adj 0 prev (Seg.render (.lit s) ++ renderSegs rest) = _
      rw [show Seg.render (.lit s) = s from rfl, scanRefs_lit fI adj s _ prev h.1, ih _ h.2]
      rfl
    | ref col ds =>
      simp only [wfSegs, Bool.and_eq_true] at h
      obtain ⟨hprev, hc0, hcall, hd0, hdall, hhead, hwf⟩ := h
      obtain ⟨a, hta, hac⟩ : ∃ a, (renderSegs rest).head? = some a ∧ isRefClose a = true := by
        cases hh : (renderSegs rest).head? with
        | none => rw [hh] at hhead; exact absurd hhead (by simp)
        | some a => rw [hh] at hhead; exact ⟨a, rfl, hhead⟩
      show scanRefs fI adj 0 prev (('.' :: (col ++ ds)) ++ renderSegs rest) = _
      rw [scanRefs_ref fI adj col ds _ prev (by simpa using hc0)
        (fun c hc => List.all_eq_true.mp hcall c hc) (by simpa using hd0)
        (fun c hc => List.all_eq_true.mp hdall c hc) hta hac hprev, ih _ hwf]
      rfl

/-- C1: for every cell whose attribute record has a `table:formula`
entry, `adjustFormulae(fromRowIndex, delta)` rewrites exactly the
relative references of the form dot, uppercase letters, digits that sit
immediately after `[`/`:` and immediately before `]`/`:` and whose row
number minus one is strictly greater than `fromRowIndex`, replacing the
row number by row number plus delta; references at or below the boundary,
column letters, and all other formula text are reproduced verbatim.  The
formula is presented as any well-formed interleaving of such references
and literal stretches in which no dot standing right of a `[` or `:` is
followed by an uppercase letter (so no further match can arise). -/
theorem claim_C1 (c : Item) (fromIndex adjust : Int) (f : String) (ps : List Seg)
    (hf : AttrMap.get c.attrib "table:formula" = some f)
    (hps : f.toList = renderSegs ps) (hwf : wfSegs none ps = true) :
    AttrMap.get (Cell.adjustFormulae c fromIndex adjust).attrib "table:formula"
      = some (String.mk (renderShiftedSegs fromIndex adjust ps)) := by
  have hscan : scanRefs fromIndex adjust 0 none f.toList
      = renderShiftedSegs fromIndex adjust ps := by
    rw [hps]
    exact scanRefs_segs fromIndex adjust ps none hwf
  unfold Cell.adjustFormulae
  rw [hf]
  show AttrMap.get (if f = "" then c
    else
      let replaced := replaceRefs fromIndex adjust f
      if f = replaced then c else Cell.setFormula c none replaced).attrib
      "table:formula" = _
  by_cases he : f = ""
  · rw [if_pos he]
    have hsh : renderShiftedSegs fromIndex adjust ps = [] := by
      rw [← hscan, he]
      rfl
    rw [hf, he, hsh]
  · rw [if_neg he]
    have hrepl : replaceRefs fromIndex adjust f
        = String.mk (renderShiftedSegs fromIndex adjust ps) := by
      unfold replaceRefs
      rw [hscan]
    show AttrMap.get (if f = replaceRefs fromIndex adjust f then c
      else Cell.setFormula c none (replaceRefs fromIndex adjust f)).attrib
      "table:formula" = _
    by_cases heq : f = replaceRefs fromIndex adjust f
    · rw [if_pos heq, hf, heq, hrepl]
    · rw [if_neg heq, Cell.setFormula_get, hrepl]

/-- Concrete cell for the C1 witness: `.A5` and `.B12` are above
boundary row 3 and get shifted by +1; `.B2` is at the boundary and the
decimal constant `0.5` is literal text — both stay. -/
def C1cell : Item :=
  .elem "table:table-cell"
    (some [("table:formula", "of:=0.5+[.A5:.B12]-[.B2]")]) []

/-- The decomposition of `of:=0.5+[.A5:.B12]-[.B2]` into literal
stretches and references. -/
def C1segs : List Seg :=
  [.lit "of:=0.5+[".toList, .ref ['A'] ['5'], .lit [':'],
    .ref ['B'] ['1', '2'], .lit "]-[".toList, .ref ['B'] ['2'], .lit [']']]

theorem claim_C1_witness :
    AttrMap.get (Cell.adjustFormulae C1cell 3 1).attrib "table:formula"
      = some "of:=0.5+[.A6:.B13]-[.B2]" := by
  have h := claim_C1 C1cell 3 1 "of:=0.5+[.A5:.B12]-[.B2]" C1segs
    (by decide) (by decide) (by decide)
  rw [h]
  decide

/-! # Tables, rows, logical indices

`Table`/`Row`/`Cell` from the canonical tree module: row iteration,
repeat-compressed logical indices, `insertRow`/`deleteRow`.  A table is
its item; positions among `children` and the item array coincide (the
1:1 invariant), and `indexOf` under JS object identity returns exactly
the matched child's position, so `indexOf`'s `-1` branches are
unreachable for a child of the table. -/

def isRow (it : Item) : Bool := it.name = "table:table-row"

def isCell (it : Item) : Bool := it.name = "table:table-cell"

/-- `parseInt(s)` in base 10 as invoked here: skip leading whitespace,
optional sign, then leading decimal digits; `none` models `NaN`.  (The
hex prefix handling of full `parseInt` cannot occur in the repeat-count
attribute values this repository reads.) -/
def parseIntJS (s : String) : Option Int :=
  match s.toList.dropWhile (fun c => c = ' ' || c = '\t' || c = '\n' || c = '\r') with
  | '-' :: rest =>
    let ds := rest.takeWhile isDigit09
    if ds.isEmpty then none else some (-(digitsVal ds : Int))
  | '+' :: rest =>
    let ds := rest.takeWhile isDigit09
    if ds.isEmpty then none else some (digitsVal ds : Int)
  | rest =>
    let ds := rest.takeWhile isDigit09
    if ds.isEmpty then none else some (digitsVal ds : Int)

/-- `parseInt(row.attrib["table:number-rows-repeated"] ?? "1")`. -/
def rowRepeat (r : Item) : Option Int :=
  parseIntJS ((AttrMap.get r.attrib "table:number-rows-repeated").getD "1")

/-- `parseInt(cell.attrib["table:number-columns-repeated"] ?? "1")`. -/
def cellRepeat (c : Item) : Option Int :=
  parseIntJS ((AttrMap.get c.attrib "table:number-columns-repeated").getD "1")

/-- `sum += ...` with NaN absorption. -/
def accAdd (a b : Option Int) : Option Int :=
  match a, b with
  | some x, some y => some (x + y)
  | _, _ => none

/-- The running prefix sum `updateRowIndex`/`updateColIndex` assigns to
each element in turn (`none` = NaN). -/
def scanIdx (acc : Option Int) : List (Option Int) → List (Option Int)
  | [] => []
  | r :: rs => acc :: scanIdx (accAdd acc r) rs

/-- `get rows()`: `all("table:table-row")`. -/
def Table.rows (t : Item) : List Item := Item.all t "table:table-row"

/-- `get cells()`: `all("table:table-cell")`. -/
def Row.cells (r : Item) : List Item := Item.all r "table:table-cell"

/-- The logical indices `updateRowIndex` computes for a table's direct
row children. -/
def rowIndices (t : Item) : List (Option Int) :=
  scanIdx (some 0) ((Table.rows t).map rowRepeat)

/-- The logical indices `updateColIndex` computes for a row's direct
cell children. -/
def cellIndices (r : Item) : List (Option Int) :=
  scanIdx (some 0) ((Row.cells r).map cellRepeat)

/-- `row.forEachCell((c) => c.adjustFormulae(index, adjust))`: each cell
child is mutated in place, other children untouched. -/
def adjustRowCells (fromIndex adjust : Int) (r : Item) : Item :=
  r.withChildren (r.children.map (fun c =>
    if isCell c then Cell.adjustFormulae c fromIndex adjust else c))

/-- `table.forEachCell((c) => c.adjustFormulae(index, adjust))`. -/
def adjustAllFormulae (t : Item) (fromIndex adjust : Int) : Item :=
  t.withChildren (t.children.map (fun r =>
    if isRow r then adjustRowCells fromIndex adjust r else r))

/-- Step the position of the tracked foreign-parented row when the scan
moves one child to the right. -/
def bpStep : Option Nat → Option Nat
  | some (n+1) => some n
  | _ => none

/-- The `forEachRow` scan of `insertRow`/`deleteRow`: find the LAST
direct row child whose `rowIndex` getter yields `idx` (each match
overwrites the local), and return its physical position among ALL
children (the position `indexOf` then finds in the item array).

The `rowIndex` getter is lazy: after a structural change every cached
index is invalidated (`propagateDirty`), and the first read through a
row whose parent link is intact runs `updateRowIndex`, which recomputes
and assigns the indices of ALL the table's rows in one pass.  A row
built by `insertRow` carries a broken parent link
(`new Row(newItem, this.parent)` points at the table's parent, not the
table): reading its index before any well-parented sibling has
triggered the recompute evaluates `this.table.rows` with `this.table`
bound to the table's parent.  Only the `Table` class has the `rows`
getter, so unless that parent is itself a `table:table` node the access
is `undefined.forEach` (or `undefined.rows` when there is no parent at
all) and raises a TypeError; in the contrived nested-table case the
recompute touches only the outer table's rows and the read yields
`undefined`, which never equals `idx`.  `bp` is the position of such a
foreign-parented row among the children still to scan (if one exists),
`seenGood` whether a well-parented row was already visited (its
`updateRowIndex` assigned every row, the foreign one included),
`parentTable` whether the table node's parent is itself a Table. -/
def scanRowsD (idx : Int) (parentTable : Bool) :
    Option Nat → Bool → Option Int → List Item → Except Unit (Option Nat)
  | _, _, _, [] => .ok none
  | bp, seenGood, acc, c :: cs =>
    if isRow c then
      let bad := bp == some 0
      if bad && !seenGood && !parentTable then .error ()
      else
        let hereOk := (!bad || seenGood) && acc == some idx
        match scanRowsD idx parentTable (bpStep bp) (seenGood || !bad)
            (accAdd acc (rowRepeat c)) cs with
        | .error e => .error e
        | .ok (some r) => .ok (some (r + 1))
        | .ok none => .ok (if hereOk then some 0 else none)
    else
      match scanRowsD idx parentTable (bpStep bp) seenGood acc cs with
      | .error e => .error e
      | .ok (some r) => .ok (some (r + 1))
      | .ok none => .ok none

/-- `array.splice(p, 0, x)` for `p ≤ array.length`. -/
def spliceIn {α : Type} : Nat → α → List α → List α
  | _, x, [] => [x]
  | 0, x, l => x :: l
  | n+1, x, c :: cs => c :: spliceIn n x cs

/-- `array.splice(p, 1)`. -/
def spliceOut {α : Type} : Nat → List α → List α
  | _, [] => []
  | 0, _ :: cs => cs
  | n+1, c :: cs => c :: spliceOut n cs

inductive OdsErr where
  | invalidIndex
  | notInTable
deriving DecidableEq

instance exceptDecEq {e a : Type} [DecidableEq e] [DecidableEq a] :
    DecidableEq (Except e a) := fun x y =>
  match x, y with
  | .ok u, .ok v => decidable_of_iff (u = v) ⟨fun h => h ▸ rfl, fun h => Except.ok.inj h⟩
  | .error u, .error v =>
      decidable_of_iff (u = v) ⟨fun h => h ▸ rfl, fun h => Except.error.inj h⟩
  | .ok _, .error _ => .isFalse (fun h => Except.noConfusion h)
  | .error _, .ok _ => .isFalse (fun h => Except.noConfusion h)

/-- The fresh row item `insertRow` builds: `{ ["table:table-row"]: [] }`. -/
def newRowItem : Item := .elem "table:table-row" none []

/-- The `Row` node `insertRow` constructs: its item, and the node passed
as the `parent` constructor argument — the source passes `this.parent`,
the TABLE'S parent (represented here by that node's item). -/
structure NewRow where
  item : Item
  parentArg : Option Item
deriving DecidableEq

/-- The position `insertRow` inserts at: the physical position of the
matched row (`contained.indexOf(insertBefore.item)`). -/
def insertPosOf (t : Item) (idx : Int) : Option Nat :=
  match scanRowsD idx true none false (some 0) t.children with
  | .ok r => r
  | .error _ => none

/-- `insertRow(index)` on a table whose existing rows carry intact
parent links (any table produced by tree construction).  Throws
InvalidIndex when no row's logical index equals `index`; otherwise
adjusts every cell formula upward from the boundary, then splices a
fresh empty row item into both sequences immediately before the matched
row and marks the subtree dirty.  The second throw
("Row to insert at not actually in table?") is unreachable: the matched
row is one of the table's children, so `indexOf` finds it.  `tParent`
is the table's own parent node; the returned `NewRow` records the
parent argument the source passes to `new Row` — `this.parent`. -/
def Table.insertRow (tParent : Option Item) (t : Item) (idx : Int) :
    Except OdsErr (Item × NewRow) :=
  match scanRowsD idx true none false (some 0) t.children with
  | .ok (some p) =>
    let t1 := adjustAllFormulae t idx 1
    .ok (t1.withChildren (spliceIn p newRowItem t1.children), ⟨newRowItem, tParent⟩)
  | _ => .error .invalidIndex

/-- `deleteRow(index)`: return without touching anything when no row's
logical index reads as `index`; otherwise adjust the formulas downward
and splice the one matched child out of both sequences (the matched row
is a child of the table, so `indexOf` finds its item and the silent
`-1` return is unreachable).  `bp` and
`parentTable` describe the heap as in `scanRowsD` (`bp = none` for a
table whose rows all have intact parent links); the `none` result is
the TypeError raised when a foreign-parented row's stale index is read
before any intact sibling and the table's parent is not itself a Table
— for a table inside a spreadsheet, or with no parent, every such read
raises. -/
def Table.deleteRow (bp : Option Nat) (parentTable : Bool) (t : Item) (idx : Int) :
    Option Item :=
  match scanRowsD idx parentTable bp false (some 0) t.children with
  | .error _ => none
  | .ok none => some t
  | .ok (some p) =>
    let t1 := adjustAllFormulae t idx (-1)
    some (t1.withChildren (spliceOut p t1.children))

example : rowIndices (.elem "table:table" none
    [.elem "table:table-row" (some [("table:number-rows-repeated", "2")]) [],
     .elem "table:table-row" (some [("table:number-rows-repeated", "1")]) [],
     .elem "table:table-row" (some [("table:number-rows-repeated", "3")]) [],
     .elem "table:table-row" none []])
    = [some 0, some 2, some 3, some 6] := by decide

/-! ## The clean scan (all parent links intact) -/

theorem rows_filter (t : Item) : Table.rows t = t.children.filter isRow := rfl

theorem rowIndices_filter (t : Item) :
    rowIndices t = scanIdx (some 0) ((t.children.filter isRow).map rowRepeat) := rfl

/-- One step of the scan over a table with no foreign-parented row. -/
theorem scanRows_clean_cons (idx : Int) (hp sg : Bool) (acc : Option Int)
    (c : Item) (cs : List Item) :
    scanRowsD idx hp none sg acc (c :: cs) =
      if isRow c then
        match scanRowsD idx hp none true (accAdd acc (rowRepeat c)) cs with
        | .error e => .error e
        | .ok (some r) => .ok (some (r + 1))
        | .ok none => .ok (if acc == some idx then some 0 else none)
      else
        match scanRowsD idx hp none sg acc cs with
        | .error e => .error e
        | .ok (some r) => .ok (some (r + 1))
        | .ok none => .ok none := by
  by_cases hr : isRow c
  · simp [scanRowsD, hr, bpStep]
  · simp [scanRowsD, hr, bpStep]

/-- The clean scan does not depend on `parentTable` or `seenGood`. -/
theorem scanRows_clean_congr (idx : Int) :
    ∀ (cs : List Item) (hp hp' sg sg' : Bool) (acc : Option Int),
      scanRowsD idx hp none sg acc cs = scanRowsD idx hp' none sg' acc cs := by
  intro cs
  induction cs with
  | nil => intro hp hp' sg sg' acc; rfl
  | cons c cs ih =>
    intro hp hp' sg sg' acc
    rw [scanRows_clean_cons, scanRows_clean_cons]
    by_cases hr : isRow c
    · rw [if_pos hr, if_pos hr, ih hp hp' true true]
    · rw [if_neg hr, if_neg hr, ih hp hp' sg sg']

/-- The clean scan never raises. -/
theorem scanRows_clean_ok (idx : Int) (hp : Bool) :
    ∀ (cs : List Item) (sg : Bool) (acc : Option Int),
      ∃ r, scanRowsD idx hp none sg acc cs = .ok r := by
  intro cs
  induction cs with
  | nil => intro sg acc; exact ⟨none, rfl⟩
  | cons c cs ih =>
    intro sg acc
    rw [scanRows_clean_cons]
    by_cases hr : isRow c
    · rw [if_pos hr]
      obtain ⟨r, hrr⟩ := ih true (accAdd acc (rowRepeat c))
      rw [hrr]
      cases r with
      | none => exact ⟨_, rfl⟩
      | some q => exact ⟨_, rfl⟩
    · rw [if_neg hr]
      obtain ⟨r, hrr⟩ := ih sg acc
      rw [hrr]
      cases r with
      | none => exact ⟨_, rfl⟩
      | some q => exact ⟨_, rfl⟩

/-- The clean scan finds no row exactly when no direct row child's
computed logical index equals `idx`. -/
theorem scanRows_clean_none_iff (idx : Int) (hp : Bool) :
    ∀ (cs : List Item) (sg : Bool) (acc : Option Int),
      (scanRowsD idx hp none sg acc cs = .ok none ↔
        some idx ∉ scanIdx acc ((cs.filter isRow).map rowRepeat)) := by
  intro cs
  induction cs with
  | nil => intro sg acc; simp [scanRowsD, scanIdx]
  | cons c cs ih =>
    intro sg acc
    rw [scanRows_clean_cons]
    by_cases hr : isRow c
    · rw [if_pos hr, List.filter_cons_of_pos (by simpa using hr), List.map_cons]
      obtain ⟨r, hrr⟩ := scanRows_clean_ok idx hp cs true (accAdd acc (rowRepeat c))
      rw [hrr]
      cases r with
      | none =>
        have hmem := (ih true (accAdd acc (rowRepeat c))).mp hrr
        by_cases hac : acc = some idx
        · rw [if_pos (by simpa using hac)]
          simp only [scanIdx, List.mem_cons]
          constructor
          · intro h
            exact absurd h (by simp)
          · intro h
            exact absurd (Or.inl hac.symm) h
        · rw [if_neg (by simpa using hac)]
          simp only [scanIdx, List.mem_cons]
          constructor
          · intro _
            rintro (hor | hor)
            · exact hac hor.symm
            · exact hmem hor
          · intro _
            trivial
      | some q =>
        have hne : some idx ∈ scanIdx (accAdd acc (rowRepeat c))
            ((cs.filter isRow).map rowRepeat) := by
          by_contra hcon
          have := (ih true (accAdd acc (rowRepeat c))).mpr hcon
          rw [hrr] at this
          exact absurd this (by simp)
        simp only [scanIdx, List.mem_cons]
        constructor
        · intro h
          exact absurd h (by simp)
        · intro h
          exact absurd (Or.inr hne) h
    · rw [if_neg hr, List.filter_cons_of_neg (by simpa using hr)]
      obtain ⟨r, hrr⟩ := scanRows_clean_ok idx hp cs sg acc
      rw [hrr]
      cases r with
      | none =>
        have hmem := (ih sg acc).mp hrr
        constructor
        · intro _
          exact hmem
        · intro _
          trivial
      | some q =>
        have hne : some idx ∈ scanIdx acc ((cs.filter isRow).map rowRepeat) := by
          by_contra hcon
          have := (ih sg acc).mpr hcon
          rw [hrr] at this
          exact absurd this (by simp)
        constructor
        · intro h
          exact absurd h (by simp)
        · intro h
          exact absurd hne h

/-- A found position is a position among the children. -/
theorem scanRows_clean_lt (idx : Int) (hp : Bool) :
    ∀ (cs : List Item) (sg : Bool) (acc : Option Int) (p : Nat),
      scanRowsD idx hp none sg acc cs = .ok (some p) → p < cs.length := by
  intro cs
  induction cs with
  | nil =>
    intro sg acc p h
    rw [show scanRowsD idx hp none sg acc [] = .ok none from rfl] at h
    exact absurd h (by simp)
  | cons c cs ih =>
    intro sg acc p h
    rw [scanRows_clean_cons] at h
    by_cases hr : isRow c
    · rw [if_pos hr] at h
      obtain ⟨r, hrr⟩ := scanRows_clean_ok idx hp cs true (accAdd acc (rowRepeat c))
      rw [hrr] at h
      cases r with
      | none =>
        by_cases hac : (acc == some idx) = true
        · rw [if_pos hac] at h
          have : p = 0 := by simpa using (Except.ok.inj h).symm
          simp [this]
        · rw [if_neg hac] at h
          exact absurd h (by simp)
      | some q =>
        have hpq : p = q + 1 := by simpa using (Except.ok.inj h).symm
        have := ih true (accAdd acc (rowRepeat c)) q hrr
        simp only [List.length_cons, hpq]
        omega
    · rw [if_neg hr] at h
      obtain ⟨r, hrr⟩ := scanRows_clean_ok idx hp cs sg acc
      rw [hrr] at h
      cases r with
      | none => exact absurd h (by simp)
      | some q =>
        have hpq : p = q + 1 := by simpa using (Except.ok.inj h).symm
        have := ih sg acc q hrr
        simp only [List.length_cons, hpq]
        omega

/-- C3: `insertRow(logicalIndex)` fails with InvalidIndex exactly when
no direct row child's computed logical index equals `logicalIndex` (and
never with the other, unreachable throw).  The index is validated before
any mutation: on failure the embedding returns with the table value
untouched, mirroring the source, where the throw precedes the formula
fan-out and both splices. -/
theorem claim_C3 (tP : Option Item) (t : Item) (idx : Int) :
    (Table.insertRow tP t idx = Except.error OdsErr.invalidIndex ↔
      some idx ∉ rowIndices t) ∧
      Table.insertRow tP t idx ≠ Except.error OdsErr.notInTable := by
  obtain ⟨r, hr⟩ := scanRows_clean_ok idx true t.children false (some 0)
  unfold Table.insertRow
  rw [hr]
  cases r with
  | none =>
    have hmem := (scanRows_clean_none_iff idx true t.children false (some 0)).mp hr
    rw [rowIndices_filter]
    exact ⟨⟨fun _ => hmem, fun _ => rfl⟩, by simp⟩
  | some p =>
    have hmem : some idx ∈ scanIdx (some 0) ((t.children.filter isRow).map rowRepeat) := by
      by_contra hcon
      have := (scanRows_clean_none_iff idx true t.children false (some 0)).mpr hcon
      rw [hr] at this
      exact absurd this (by simp)
    rw [rowIndices_filter]
    constructor
    · constructor
      · intro h
        exact absurd h (by simp)
      · intro h
        exact absurd hmem h
    · simp

/-- C7: when no direct row child's computed logical index equals
`logicalIndex`, `deleteRow(logicalIndex)` returns normally (no throw)
and the table — child item sequence, node list and every attribute —
is exactly as before: the scan finds no target and the function returns
before the formula fan-out and the splices. -/
theorem claim_C7 (t : Item) (idx : Int) (hp : Bool)
    (h : some idx ∉ rowIndices t) :
    Table.deleteRow none hp t idx = some t := by
  have hnone := (scanRows_clean_none_iff idx hp t.children false (some 0)).mpr
    (by rw [rowIndices_filter] at h; exact h)
  unfold Table.deleteRow
  rw [hnone]

/-- Concrete table for the C7 witness: rows at logical indices 0 and 2;
index 1 falls inside the first row's compressed run and matches no row. -/
def C7tbl : Item :=
  .elem "table:table" none
    [.elem "table:table-row" (some [("table:number-rows-repeated", "2")]) [],
     .elem "table:table-row" none [.elem "table:table-cell" none [.text none "x"]]]

theorem claim_C7_witness :
    Table.deleteRow none true C7tbl 1 = some C7tbl ∧ some 1 ∉ rowIndices C7tbl := by
  constructor
  · exact claim_C7 C7tbl 1 true (by decide)
  · decide

theorem scanIdx_map_some :
    ∀ (vs : List Int) (a : Int) (k : Nat), k < vs.length →
      (scanIdx (some a) (vs.map some))[k]? = some (some (a + (vs.take k).sum)) := by
  intro vs
  induction vs with
  | nil => intro a k hk; exact absurd hk (by simp)
  | cons v vs ih =>
    intro a k hk
    cases k with
    | zero => simp [scanIdx]
    | succ k' =>
      have hk' : k' < vs.length := by simpa using hk
      rw [show scanIdx (some a) ((v :: vs).map some)
          = some a :: scanIdx (some (a + v)) (vs.map some) from rfl,
        List.getElem?_cons_succ, ih (a + v) k' hk']
      simp only [List.take_succ_cons, List.sum_cons, Option.some.injEq]
      rw [Int.add_assoc]

/-- C4: the computed logical index of the k-th direct row child of a
table is the prefix sum of the repeat counts (default 1 when the
attribute is absent) of the preceding row children, and likewise for the
cell children of a row; with repeat counts [2,1,3] the indices are
0, 2, 3 and a following uncompressed row sits at 6 (the witness). -/
theorem claim_C4 :
    (∀ (t : Item) (vs : List Int) (k : Nat),
        (Table.rows t).map rowRepeat = vs.map some → k < vs.length →
        (rowIndices t)[k]? = some (some ((vs.take k).sum))) ∧
      (∀ (r : Item) (vs : List Int) (k : Nat),
        (Row.cells r).map cellRepeat = vs.map some → k < vs.length →
        (cellIndices r)[k]? = some (some ((vs.take k).sum))) := by
  constructor
  · intro t vs k hvs hk
    unfold rowIndices
    rw [hvs, scanIdx_map_some vs 0 k hk, Int.zero_add]
  · intro r vs k hvs hk
    unfold cellIndices
    rw [hvs, scanIdx_map_some vs 0 k hk, Int.zero_add]

/-- Concrete table for the C4 witness: row repeat counts [2,1,3] and an
uncompressed fourth row; a matching row of cells with column repeat
counts [2,1,3] and an uncompressed fourth cell. -/
def C4tbl : Item :=
  .elem "table:table" none
    [.elem "table:table-row" (some [("table:number-rows-repeated", "2")]) [],
     .elem "table:table-row" (some [("table:number-rows-repeated", "1")]) [],
     .elem "table:table-row" (some [("table:number-rows-repeated", "3")]) [],
     .elem "table:table-row" none []]

/-- Concrete row for the C4 witness (cell side). -/
def C4row : Item :=
  .elem "table:table-row" none
    [.elem "table:table-cell" (some [("table:number-columns-repeated", "2")]) [],
     .elem "table:table-cell" (some [("table:number-columns-repeated", "1")]) [],
     .elem "table:table-cell" (some [("table:number-columns-repeated", "3")]) [],
     .elem "table:table-cell" none []]

theorem claim_C4_witness :
    (rowIndices C4tbl)[3]? = some (some 6) ∧ (cellIndices C4row)[3]? = some (some 6) := by
  constructor
  · have h := claim_C4.1 C4tbl [2, 1, 3, 1] 3 (by decide) (by decide)
    rw [h]
    decide
  · have h := claim_C4.2 C4row [2, 1, 3, 1] 3 (by decide) (by decide)
    rw [h]
    decide

/-! ## Insert-then-delete machinery (C2) -/

/-- Every direct row child's repeat attribute parses as a positive
integer (absent counts as 1). -/
def posReps (cs : List Item) : Bool :=
  cs.all (fun r => !isRow r ||
    (match rowRepeat r with
     | some v => decide (1 ≤ v)
     | none => false))

/-- The cell's formula (if any) has no reference with
`row - 1 > k`. -/
def cellStatic (k : Int) (c : Item) : Bool :=
  match AttrMap.get c.attrib "table:formula" with
  | some f => !(anyShiftable k 0 none f.toList)
  | none => true

/-- No cell of any direct row child has a formula reference with
`row - 1 > k`. -/
def rowsStatic (k : Int) (cs : List Item) : Bool :=
  cs.all (fun r => !isRow r || r.children.all (fun c => !isCell c || cellStatic k c))

theorem map_id_of_mem {α : Type} (f : α → α) :
    ∀ l : List α, (∀ x ∈ l, f x = x) → l.map f = l := by
  intro l
  induction l with
  | nil => intro _; rfl
  | cons c cs ih =>
    intro h
    rw [List.map_cons, h c (List.mem_cons_self c cs),
      ih (fun x hx => h x (List.mem_cons_of_mem c hx))]

theorem Item.withChildren_self : ∀ it : Item, it.withChildren it.children = it := by
  intro it
  cases it <;> rfl

theorem Item.withChildren_withChildren (it : Item) (l l' : List Item) :
    (it.withChildren l).withChildren l' = it.withChildren l' := by
  cases it <;> rfl

theorem cellStatic_id (k adj : Int) (c : Item) (h : cellStatic k c = true) :
    Cell.adjustFormulae c k adj = c := by
  apply Cell.adjustFormulae_id
  intro f hf
  unfold cellStatic at h
  rw [hf] at h
  simpa using h

theorem adjustRowCells_id (k adj : Int) (r : Item)
    (h : r.children.all (fun c => !isCell c || cellStatic k c) = true) :
    adjustRowCells k adj r = r := by
  unfold adjustRowCells
  have hmem : ∀ c ∈ r.children,
      (if isCell c then Cell.adjustFormulae c k adj else c) = c := by
    intro c hc
    by_cases hcell : isCell c
    · rw [if_pos hcell]
      have hx := List.all_eq_true.mp h c hc
      exact cellStatic_id k adj c (by simpa [hcell] using hx)
    · rw [if_neg hcell]
  rw [map_id_of_mem _ r.children hmem, Item.withChildren_self]

theorem adjustAllFormulae_id (k adj : Int) (t : Item)
    (h : rowsStatic k t.children = true) :
    adjustAllFormulae t k adj = t := by
  unfold adjustAllFormulae
  have hmem : ∀ r ∈ t.children, (if isRow r then adjustRowCells k adj r else r) = r := by
    intro r hr
    by_cases hrow : isRow r
    · rw [if_pos hrow]
      have hx := List.all_eq_true.mp h r hr
      exact adjustRowCells_id k adj r (by simpa [hrow] using hx)
    · rw [if_neg hrow]
  rw [map_id_of_mem _ t.children hmem, Item.withChildren_self]

theorem posReps_elim {cs : List Item} {c : Item} (h : posReps cs = true) (hc : c ∈ cs)
    (hr : isRow c = true) : ∃ v, rowRepeat c = some v ∧ 1 ≤ v := by
  have hx := List.all_eq_true.mp h c hc
  rw [hr] at hx
  cases hrep : rowRepeat c with
  | some v => exact ⟨v, rfl, by simpa [hrep] using hx⟩
  | none =>
    rw [hrep] at hx
    simp at hx

/-- Past the boundary: once the running sum exceeds `idx` and all
remaining repeats are positive, no later row can match. -/
theorem scanRows_clean_none_of_gt (idx : Int) (hp : Bool) :
    ∀ (cs : List Item) (sg : Bool) (a : Int), posReps cs = true → idx < a →
      scanRowsD idx hp none sg (some a) cs = .ok none := by
  intro cs
  induction cs with
  | nil => intro sg a _ _; rfl
  | cons c cs ih =>
    intro sg a hpos hgt
    have hpos' : posReps cs = true := by
      unfold posReps at hpos ⊢
      simp only [List.all_cons, Bool.and_eq_true] at hpos
      exact hpos.2
    rw [scanRows_clean_cons]
    by_cases hr : isRow c
    · rw [if_pos hr]
      obtain ⟨v, hrep, hv1⟩ := posReps_elim hpos (List.mem_cons_self c cs) (by simpa using hr)
      rw [hrep, show accAdd (some a) (some v) = some (a + v) from rfl,
        ih true (a + v) hpos' (by omega)]
      have hne : ¬((some a == some idx) = true) := by
        simp only [beq_iff_eq, Option.some.injEq]
        omega
      rw [if_neg hne]
    · rw [if_neg hr, ih sg a hpos' hgt]

/-- If the clean scan's match has no row strictly before it, the match
is the first row and its index is the starting accumulator. -/
theorem scanRows_clean_head_eq (idx : Int) (hp : Bool) :
    ∀ (cs : List Item) (sg : Bool) (a : Int) (p : Nat),
      scanRowsD idx hp none sg (some a) cs = .ok (some p) →
      ((cs.take p).any isRow) = false → a = idx := by
  intro cs
  induction cs with
  | nil =>
    intro sg a p h _
    rw [show scanRowsD idx hp none sg (some a) [] = .ok none from rfl] at h
    exact absurd h (by simp)
  | cons c cs ih =>
    intro sg a p h hnr
    rw [scanRows_clean_cons] at h
    by_cases hr : isRow c
    · rw [if_pos hr] at h
      obtain ⟨r, hrr⟩ := scanRows_clean_ok idx hp cs true (accAdd (some a) (rowRepeat c))
      rw [hrr] at h
      cases r with
      | some q =>
        have hpq : p = q + 1 := by simpa using (Except.ok.inj h).symm
        rw [hpq] at hnr
        simp only [List.take_succ_cons, List.any_cons, hr, Bool.true_or] at hnr
        exact absurd hnr (by simp)
      | none =>
        by_cases hac : a = idx
        · exact hac
        · rw [if_neg (by simp [hac] : ¬((some a == some idx) = true))] at h
          exact absurd h (by simp)
    · rw [if_neg hr] at h
      obtain ⟨r, hrr⟩ := scanRows_clean_ok idx hp cs sg (some a)
      rw [hrr] at h
      cases r with
      | none => exact absurd h (by simp)
      | some q =>
        have hpq : p = q + 1 := by simpa using (Except.ok.inj h).symm
        rw [hpq] at hnr
        simp only [List.take_succ_cons, List.any_cons, Bool.or_eq_false_iff] at hnr
        exact ih sg a q hrr hnr.2

theorem spliceIn_nil {α : Type} (x : α) (p : Nat) : spliceIn p x [] = [x] := by
  cases p <;> rfl

theorem spliceOut_spliceIn {α : Type} (x : α) :
    ∀ (l : List α) (p : Nat), p ≤ l.length → spliceOut p (spliceIn p x l) = l := by
  intro l
  induction l with
  | nil =>
    intro p hp
    have hp0 : p = 0 := Nat.le_zero.mp (by simpa using hp)
    subst hp0
    rfl
  | cons c cs ih =>
    intro p hp
    cases p with
    | zero => rfl
    | succ n =>
      show spliceOut (n + 1) (c :: spliceIn n x cs) = c :: cs
      show c :: spliceOut n (spliceIn n x cs) = c :: cs
      rw [ih n (by simpa using hp)]

theorem mem_spliceIn {α : Type} (x : α) :
    ∀ (l : List α) (p : Nat) (y : α), y ∈ spliceIn p x l → y = x ∨ y ∈ l := by
  intro l
  induction l with
  | nil =>
    intro p y hy
    rw [spliceIn_nil] at hy
    exact Or.inl (by simpa using hy)
  | cons c cs ih =>
    intro p y hy
    cases p with
    | zero =>
      rcases List.mem_cons.mp hy with h | h
      · exact Or.inl h
      · exact Or.inr h
    | succ n =>
      rcases List.mem_cons.mp hy with h | h
      · exact Or.inr (h ▸ List.mem_cons_self _ _)
      · rcases ih n y h with h2 | h2
        · exact Or.inl h2
        · exact Or.inr (List.mem_cons_of_mem _ h2)

theorem rowsStatic_spliceIn (k : Int) (cs : List Item) (p : Nat)
    (h : rowsStatic k cs = true) :
    rowsStatic k (spliceIn p newRowItem cs) = true := by
  unfold rowsStatic at h ⊢
  apply List.all_eq_true.mpr
  intro r hr
  rcases mem_spliceIn newRowItem cs p r hr with h2 | h2
  · subst h2
    rfl
  · exact List.all_eq_true.mp h r h2

theorem rowRepeat_newRowItem : rowRepeat newRowItem = some 1 := by decide

theorem isRow_newRowItem : isRow newRowItem = true := by decide

/-- Step of the dirty scan at a row left of the foreign-parented row. -/
theorem scanRowsD_cons_row_bp_succ (idx : Int) (hp : Bool) (n : Nat) (sg : Bool)
    (acc : Option Int) (c : Item) (cs : List Item) (hr : isRow c = true) :
    scanRowsD idx hp (some (n + 1)) sg acc (c :: cs) =
      match scanRowsD idx hp (some n) true (accAdd acc (rowRepeat c)) cs with
      | .error e => .error e
      | .ok (some r) => .ok (some (r + 1))
      | .ok none => .ok (if acc == some idx then some 0 else none) := by
  simp [scanRowsD, hr, bpStep]

/-- Step of the dirty scan at the foreign-parented row itself, after a
well-parented row has been seen: its cached index was assigned by that
row's recompute, so it reads normally. -/
theorem scanRowsD_cons_row_bp_zero (idx : Int) (hp : Bool)
    (acc : Option Int) (c : Item) (cs : List Item) (hr : isRow c = true) :
    scanRowsD idx hp (some 0) true acc (c :: cs) =
      match scanRowsD idx hp none true (accAdd acc (rowRepeat c)) cs with
      | .error e => .error e
      | .ok (some r) => .ok (some (r + 1))
      | .ok none => .ok (if acc == some idx then some 0 else none) := by
  simp [scanRowsD, hr, bpStep]

/-- Step of the dirty scan at a non-row child. -/
theorem scanRowsD_cons_nonrow (idx : Int) (hp : Bool) (bp : Option Nat) (sg : Bool)
    (acc : Option Int) (c : Item) (cs : List Item) (hr : isRow c = false) :
    scanRowsD idx hp bp sg acc (c :: cs) =
      match scanRowsD idx hp (bpStep bp) sg acc cs with
      | .error e => .error e
      | .ok (some r) => .ok (some (r + 1))
      | .ok none => .ok none := by
  simp [scanRowsD, hr]

/-- After splicing the fresh (foreign-parented) row in at the matched
position, the delete scan matches exactly that row — provided a
well-parented row precedes it (or was already seen), and all repeats are
positive so no later row can reuse the index. -/
theorem scanRows_after_insert (idx : Int) (hp : Bool) :
    ∀ (cs : List Item) (a : Int) (p : Nat) (sg : Bool),
      posReps cs = true →
      scanRowsD idx true none false (some a) cs = .ok (some p) →
      (sg = true ∨ (cs.take p).any isRow = true) →
      scanRowsD idx hp (some p) sg (some a) (spliceIn p newRowItem cs) = .ok (some p) := by
  intro cs
  induction cs with
  | nil =>
    intro a p sg _ h _
    rw [show scanRowsD idx true none false (some a) [] = .ok none from rfl] at h
    exact absurd h (by simp)
  | cons c cs ih =>
    intro a p sg hpos h hbefore
    have hpos' : posReps cs = true := by
      unfold posReps at hpos ⊢
      simp only [List.all_cons, Bool.and_eq_true] at hpos
      exact hpos.2
    rw [scanRows_clean_cons] at h
    by_cases hr : isRow c
    · rw [if_pos hr] at h
      obtain ⟨v, hrep, hv1⟩ := posReps_elim hpos (List.mem_cons_self c cs) (by simpa using hr)
      obtain ⟨r, hrr⟩ := scanRows_clean_ok idx true cs true (accAdd (some a) (rowRepeat c))
      rw [hrr] at h
      cases r with
      | some q =>
        have hpq : p = q + 1 := by simpa using (Except.ok.inj h).symm
        subst hpq
        rw [show spliceIn (q + 1) newRowItem (c :: cs) = c :: spliceIn q newRowItem cs
          from rfl]
        rw [scanRowsD_cons_row_bp_succ idx hp q sg (some a) c _ (by simpa using hr)]
        have hclean : scanRowsD idx true none false (accAdd (some a) (rowRepeat c)) cs
            = .ok (some q) := by
          rw [scanRows_clean_congr idx cs true true false true]
          exact hrr
        rw [hrep] at hclean
        rw [hrep]
        rw [show accAdd (some a) (some v) = some (a + v) from rfl] at hclean ⊢
        rw [ih (a + v) q true hpos' hclean (Or.inl rfl)]
      | none =>
        by_cases hac : a = idx
        · have hp0 : p = 0 := by
            rw [if_pos (by simp [hac] : (some a == some idx) = true)] at h
            simpa using (Except.ok.inj h).symm
          subst hp0
          have hsg : sg = true := by
            rcases hbefore with hsg | habs
            · exact hsg
            · rw [List.take_zero] at habs
              exact absurd habs (by simp)
          subst hsg
          rw [show spliceIn 0 newRowItem (c :: cs) = newRowItem :: c :: cs from rfl]
          rw [scanRowsD_cons_row_bp_zero idx hp (some a) newRowItem (c :: cs)
            isRow_newRowItem]
          rw [rowRepeat_newRowItem,
            show accAdd (some a) (some 1) = some (a + 1) from rfl]
          rw [scanRows_clean_none_of_gt idx hp (c :: cs) true (a + 1) hpos (by omega)]
          rw [if_pos (by simp [hac] : (some a == some idx) = true)]
        · rw [if_neg (by simp [hac] : ¬((some a == some idx) = true))] at h
          exact absurd h (by simp)
    · rw [if_neg hr] at h
      obtain ⟨r, hrr⟩ := scanRows_clean_ok idx true cs false (some a)
      rw [hrr] at h
      cases r with
      | none => exact absurd h (by simp)
      | some q =>
        have hpq : p = q + 1 := by simpa using (Except.ok.inj h).symm
        subst hpq
        rw [show spliceIn (q + 1) newRowItem (c :: cs) = c :: spliceIn q newRowItem cs
          from rfl]
        rw [scanRowsD_cons_nonrow idx hp (some (q + 1)) sg (some a) c _
          (by simpa using hr)]
        have hbefore' : sg = true ∨ (cs.take q).any isRow = true := by
          rcases hbefore with hsg | hany
          · exact Or.inl hsg
          · rw [List.take_succ_cons, List.any_cons] at hany
            rcases Bool.or_eq_true_iff.mp hany with h1 | h1
            · exact absurd h1 hr
            · exact Or.inr h1
        rw [show bpStep (some (q + 1)) = some q from rfl,
          ih a q sg hpos' hrr hbefore']

/-- C2 (amended): inserting a row at logical index `k` and then deleting
at logical index `k` restores the table exactly — child item sequence,
node list, formulas — provided every row repeat count parses as a
positive integer, no cell formula holds a reference with
`row - 1 > k` (so the two formula fan-outs do not fire `setFormula`),
and `k ≠ 0`.  The last hypothesis is forced by the source's parent-link
slip: the inserted row's `rowIndex` is unreadable until a well-parented
sibling has recomputed the indices — when the insertion point is the
first row, `deleteRow(k)` reads it first and raises a TypeError (or,
were the table's parent itself a table, would match nothing and remove
nothing).  With `k ≠ 0` a well-parented row precedes the fresh one, so
the outcome does not depend on the table's surroundings
(`parentTable` arbitrary). -/
theorem claim_C2 (t : Item) (k : Int) (p : Nat) (tP : Option Item)
    (t' : Item) (nr : NewRow) (pT : Bool)
    (hreps : posReps t.children = true)
    (hstat : rowsStatic k t.children = true)
    (hk : k ≠ 0)
    (hpos : insertPosOf t k = some p)
    (hins : Table.insertRow tP t k = Except.ok (t', nr)) :
    Table.deleteRow (some p) pT t' k = some t := by
  have hscan : scanRowsD k true none false (some 0) t.children = .ok (some p) := by
    unfold insertPosOf at hpos
    obtain ⟨r, hr⟩ := scanRows_clean_ok k true t.children false (some 0)
    rw [hr] at hpos ⊢
    cases r with
    | none => exact absurd hpos (by simp)
    | some q => rw [show q = p from by simpa using hpos]
  have hadj1 : adjustAllFormulae t k 1 = t := adjustAllFormulae_id k 1 t hstat
  have ht' : t' = t.withChildren (spliceIn p newRowItem t.children) := by
    have h2 := hins
    unfold Table.insertRow at h2
    rw [hscan] at h2
    simp only [hadj1] at h2
    exact (congrArg Prod.fst (Except.ok.inj h2)).symm
  have hchil : t'.children = spliceIn p newRowItem t.children := by
    rw [ht']
    cases ht : t with
    | text a s =>
      rw [ht, show (Item.text a s).children = [] from rfl] at hscan
      rw [show scanRowsD k true none false (some 0) ([] : List Item) = .ok none
        from rfl] at hscan
      exact absurd hscan (by simp)
    | elem tg at_ cs => rfl
  have hstat' : rowsStatic k t'.children = true := by
    rw [hchil]
    exact rowsStatic_spliceIn k t.children p hstat
  have hadj2 : adjustAllFormulae t' k (-1) = t' := adjustAllFormulae_id k (-1) t' hstat'
  have hrowbefore : (t.children.take p).any isRow = true := by
    by_cases hany : (t.children.take p).any isRow
    · exact hany
    · exact absurd (scanRows_clean_head_eq k true t.children false 0 p hscan
        (by simpa using hany)).symm hk
  have hdscan : scanRowsD k pT (some p) false (some 0) t'.children = .ok (some p) := by
    rw [hchil]
    exact scanRows_after_insert k pT t.children 0 p false hreps hscan (Or.inr hrowbefore)
  have hple : p ≤ t.children.length :=
    Nat.le_of_lt (scanRows_clean_lt k true t.children false (some 0) p hscan)
  unfold Table.deleteRow
  rw [hdscan]
  simp only [hadj2]
  rw [hchil, spliceOut_spliceIn newRowItem t.children p hple, ht',
    Item.withChildren_withChildren, Item.withChildren_self]

/-- Concrete table for the C2 counterexample: one empty row. -/
def C2tbl : Item := .elem "table:table" none [.elem "table:table-row" none []]

/-- The table after `insertRow(0)`: the fresh row sits at position 0,
before the original row. -/
def C2after : Item :=
  .elem "table:table" none [newRowItem, .elem "table:table-row" none []]

/-- C2 counterexample: on a one-row table (inside a spreadsheet, as in
any document), `insertRow(0)` succeeds and puts the new
(foreign-parented) row first; `deleteRow(0)` then reads the new row's
index first — no well-parented sibling has assigned it — and
`updateRowIndex`'s `this.table.rows` raises a TypeError, because
`this.table` is the spreadsheet, which has no `rows` getter.  The round
trip crashes instead of restoring the one-row table; and even in the
contrived heap where the read yields `undefined` (parent a table),
nothing matches index 0 and both rows survive. -/
theorem claim_C2_counterexample :
    Table.insertRow none C2tbl 0 = Except.ok (C2after, ⟨newRowItem, none⟩) ∧
      Table.deleteRow (some 0) false C2after 0 = none ∧
      Table.deleteRow (some 0) true C2after 0 = some C2after ∧
      C2after ≠ C2tbl ∧ insertPosOf C2tbl 0 = some 0 := by decide

/-- Concrete table for the C2 witness: two empty rows, insertion at
logical index 1 (so a well-parented row precedes the fresh one). -/
def C2wtbl : Item :=
  .elem "table:table" none
    [.elem "table:table-row" none [],
     .elem "table:table-row" none
       [.elem "table:table-cell" (some [("table:formula", "of:=[.A1]")]) []]]

/-- `C2wtbl` after `insertRow(1)`. -/
def C2wafter : Item :=
  .elem "table:table" none
    [.elem "table:table-row" none [],
     newRowItem,
     .elem "table:table-row" none
       [.elem "table:table-cell" (some [("table:formula", "of:=[.A1]")]) []]]

theorem claim_C2_witness :
    Table.deleteRow (some 1) true C2wafter 1 = some C2wtbl :=
  claim_C2 C2wtbl 1 1 none C2wafter ⟨newRowItem, none⟩ true
    (by decide) (by decide) (by decide) (by decide) (by decide)

/-! ## C10: the parent argument of the inserted row -/

/-- Concrete table for C10: one row inside a spreadsheet. -/
def C10tbl : Item := .elem "table:table" none [.elem "table:table-row" none []]

/-- The table's parent (an `office:spreadsheet` node wrapping it). -/
def C10ss : Item :=
  .elem "office:spreadsheet" none
    [.elem "table:table" none [.elem "table:table-row" none []]]

/-- C10: evaluating `insertRow` at the failing input.  The source
constructs the returned `Row` with `new Row(newItem, this.parent)` — the
TABLE'S parent, the spreadsheet — although the row is pushed into the
table's child list, so the parent back-link invariant is broken and the
row's `table` getter and `rowIndex` computation refer to the wrong
node. -/
theorem claim_C10 :
    (match Table.insertRow (some C10ss) C10tbl 0 with
      | Except.ok pr => pr.2.parentArg
      | Except.error _ => none) = some C10ss ∧ some C10ss ≠ some C10tbl := by decide

/-! ## C5: single / dig on a missing child -/

/-- A node with no `office:spreadsheet` child. -/
def C5node : Item := .elem "office:body" none [.elem "office:text" none []]

/-- C5 counterexample: with no matching child, `single` returns the
absent value `undefined` (modelled `none`) — no NotFound failure is
raised — and a `dig` whose final lookup misses likewise returns the
absent value rather than failing. -/
theorem claim_C5_counterexample :
    Item.single C5node "office:spreadsheet" = none ∧
      Item.dig C5node ["office:spreadsheet"] = DigOut.undef := by decide

theorem find?_first_match {p : Item → Bool} :
    ∀ (pre : List Item) (c : Item) (post : List Item),
      p c = true → (∀ b ∈ pre, p b = false) →
      (pre ++ c :: post).find? p = some c := by
  intro pre
  induction pre with
  | nil =>
    intro c post hc _
    show List.find? p (c :: post) = some c
    rw [List.find?_cons_of_pos _ hc]
  | cons b pre ih =>
    intro c post hc hpre
    have hb := hpre b (List.mem_cons_self _ _)
    rw [List.cons_append, List.find?_cons_of_neg _ (by simp [hb]),
      ih c post hc (fun x hx => hpre x (List.mem_cons_of_mem _ hx))]

/-- C5 (amended): `single(tagName)` returns the first child whose
resolved tag equals `tagName`; when no child matches it returns the
absent value `undefined` (modelled `none`) instead of failing with an
explicit error.  `dig` applies `single` left to right, and a missed
lookup surfaces one step late: a TypeError at the following step, or the
absent value when the final lookup misses. -/
theorem claim_C5 (it : Item) (key : String) (ks : List String) :
    (Item.single it key = none ↔ ∀ c ∈ it.children, c.name ≠ key) ∧
      (∀ pre c post, it.children = pre ++ c :: post → c.name = key →
        (∀ b ∈ pre, b.name ≠ key) → Item.single it key = some c) ∧
      (∀ c, Item.single it key = some c → c.name = key ∧ c ∈ it.children) ∧
      Item.dig it (key :: ks) =
        (match Item.single it key with
          | some c => Item.dig c ks
          | none => if ks.isEmpty then DigOut.undef else DigOut.crash) := by
  refine ⟨?_, ?_, ?_, ?_⟩
  · unfold Item.single
    rw [List.find?_eq_none]
    constructor
    · intro h c hc
      simpa using h c hc
    · intro h c hc
      simpa using h c hc
  · intro pre c post hch hc hpre
    unfold Item.single
    rw [hch]
    exact find?_first_match pre c post (by simpa using hc)
      (fun b hb => by simpa using hpre b hb)
  · intro c hc
    unfold Item.single at hc
    exact ⟨by simpa using List.find?_some hc, List.mem_of_find?_eq_some hc⟩
  · rfl

/-- Concrete node for the C5 witness: the first of two `table:table`
children is returned. -/
def C5wnode : Item :=
  .elem "office:body" none
    [.elem "office:text" none [], .elem "table:table" none [],
     .elem "table:table" (some [("table:name", "two")]) []]

theorem claim_C5_witness :
    Item.single C5wnode "table:table" = some (.elem "table:table" none []) :=
  (claim_C5 C5wnode "table:table" []).2.1 [.elem "office:text" none []]
    (.elem "table:table" none [])
    [.elem "table:table" (some [("table:name", "two")]) []]
    (by decide) (by decide) (by decide)

/-! ## C6: copyContentsFrom -/

inductive CopyErr where
  | noParent
  | notInParent
deriving DecidableEq

/-- `copyContentsFrom(other)`, seen from the item tree.  The
`structuredClone` is a deep copy, which on pure tree values is the value
`b` (= `other.item`) itself.  The source then OVERWRITES `this.parent`
with `other.parent` and looks `this` up in `this.parent.children` — that
is, in OTHER'S parent's child list.  Under the parent/child invariant a
node occurs only in its own parent's child list, so the lookup yields
`this`'s position there exactly when `this` is a child of `other`'s
parent (`aPosInBParent = some p`), and `-1` otherwise
(`aPosInBParent = none`), in which case the source throws
"This node isn't in its own parent?".  When `other` is the root
(`bParent = none`), `this.parent!.children` raises a TypeError.  On
success, `contained[parentIndex] = clone` replaces the `p`-th child item
of `other`'s parent with the duplicate. -/
def Node.copyContentsFrom (bParent : Option Item) (aPosInBParent : Option Nat)
    (b : Item) : Except CopyErr Item :=
  match bParent with
  | none => .error .noParent
  | some pb =>
    match aPosInBParent with
    | none => .error .notInParent
    | some p => .ok (pb.withChildren (pb.children.set p b))

/-- The node copied from in the C6 counterexample (a child of
`C6pb`). -/
def C6b : Item := .elem "tmpl:row" none [.text none "template"]

/-- B's parent in the C6 counterexample.  The node A calling
`copyContentsFrom` is a child of a DIFFERENT parent, so A does not occur
among `C6pb`'s children and the identity lookup `indexOf(this)` yields
`-1` (modelled `aPosInBParent = none`). -/
def C6pb : Item := .elem "tmpl:parent" none [.elem "tmpl:row" none [.text none "template"]]

/-- C6 counterexample: for a node A (with a parent) that is not a
sibling of B, the call does not succeed — it throws after already
overwriting A's identity — and nothing is spliced into A's own parent's
sequence.  This refutes "for every node A that has a parent and every
node B, A.copyContentsFrom(B) succeeds ... splices into A's own
parent". -/
theorem claim_C6_counterexample :
    Node.copyContentsFrom (some C6pb) none C6b = Except.error CopyErr.notInParent := by
  decide

theorem set_getElem?_self {α : Type} :
    ∀ (l : List α) (p : Nat) (x : α), p < l.length → (l.set p x)[p]? = some x := by
  intro l
  induction l with
  | nil => intro p x hp; exact absurd hp (by simp)
  | cons c cs ih =>
    intro p x hp
    cases p with
    | zero => simp
    | succ n =>
      simp only [List.set_cons_succ, List.getElem?_cons_succ]
      exact ih n x (by simpa using hp)

theorem set_getElem?_ne {α : Type} :
    ∀ (l : List α) (p q : Nat) (x : α), q ≠ p → (l.set p x)[q]? = l[q]? := by
  intro l
  induction l with
  | nil => intro p q x _; rfl
  | cons c cs ih =>
    intro p q x hq
    cases p with
    | zero =>
      cases q with
      | zero => exact absurd rfl hq
      | succ m =>
        simp only [List.set_cons_zero, List.getElem?_cons_succ]
    | succ n =>
      cases q with
      | zero => simp
      | succ m =>
        simp only [List.set_cons_succ, List.getElem?_cons_succ]
        exact ih n m x (by simpa using hq)

/-- C6 (amended): when the calling node A IS a child of B's parent (in
particular when A and B are siblings, the repository's use), the call
succeeds: B's subtree is deep-duplicated (a value copy, so the result is
content-equal to a snapshot of B and shares nothing with the live B) and
the duplicate item replaces the child item at A's position in B's
parent's sequence — A's position among the children is unchanged, all
other children untouched. -/
theorem claim_C6 (pb : Item) (p : Nat) (b : Item) (hp : p < pb.children.length) :
    ∃ r, Node.copyContentsFrom (some pb) (some p) b = Except.ok r ∧
      r.name = pb.name ∧ r.attrOf = pb.attrOf ∧
      r.children.length = pb.children.length ∧
      r.children[p]? = some b ∧
      (∀ q, q ≠ p → r.children[q]? = pb.children[q]?) := by
  cases pb with
  | text a s => exact absurd hp (by simp [Item.children])
  | elem tg a cs =>
    refine ⟨(Item.elem tg a cs).withChildren (cs.set p b), rfl, rfl, rfl, ?_, ?_, ?_⟩
    · show (cs.set p b).length = cs.length
      exact List.length_set cs p b
    · show (cs.set p b)[p]? = some b
      exact set_getElem?_self cs p b (by simpa [Item.children] using hp)
    · intro q hq
      show (cs.set p b)[q]? = cs[q]?
      exact set_getElem?_ne cs p q b hq

/-- Concrete parent for the C6 witness. -/
def C6wpb : Item := .elem "w:par" none [.elem "w:a" none [], .elem "w:c" none []]

/-- Concrete copied node for the C6 witness. -/
def C6wb : Item := .elem "w:b" (some [("k", "v")]) [.text none "payload"]

theorem claim_C6_witness :
    0 < C6wpb.children.length ∧
      ∃ r, Node.copyContentsFrom (some C6wpb) (some 0) C6wb = Except.ok r ∧
        r.name = C6wpb.name ∧ r.attrOf = C6wpb.attrOf ∧
        r.children.length = C6wpb.children.length ∧
        r.children[0]? = some C6wb ∧
        (∀ q, q ≠ 0 → r.children[q]? = C6wpb.children[q]?) :=
  ⟨by decide, claim_C6 C6wpb 0 C6wb (by decide)⟩

/-! ## C9: deleteAttrib with no attribute map -/

/-- C9 counterexample: `deleteAttrib` on a node whose item has no
attribute map DOES change the item — it creates an empty attribute map
(`this.item[":@"] = {}`) before deleting the key. -/
theorem claim_C9_counterexample :
    Item.deleteAttrib (Item.elem "office:body" none []) "office:value"
      ≠ Item.elem "office:body" none [] ∧
      (Item.deleteAttrib (Item.elem "office:body" none []) "office:value").attrOf
        = some [] := by decide

/-- C9 (amended): on a node whose item carries no attribute map,
`deleteAttrib(key)` returns without failing and deletes nothing: the
attribute view, tag and children are unchanged — but an empty attribute
map IS created on the item. -/
theorem claim_C9 (it : Item) (k : String) (h : it.attrOf = none) :
    (it.deleteAttrib k).attrOf = some [] ∧
      (it.deleteAttrib k).attrib = it.attrib ∧
      (it.deleteAttrib k).name = it.name ∧
      (it.deleteAttrib k).children = it.children := by
  cases it with
  | elem tg a cs =>
    have ha : a = none := by simpa [Item.attrOf] using h
    subst ha
    exact ⟨rfl, rfl, rfl, rfl⟩
  | text a s =>
    have ha : a = none := by simpa [Item.attrOf] using h
    subst ha
    exact ⟨rfl, rfl, rfl, rfl⟩

theorem claim_C9_witness :
    (Item.text none "x").attrOf = none ∧
      ((Item.text none "x").deleteAttrib "office:value").attrOf = some [] ∧
      ((Item.text none "x").deleteAttrib "office:value").attrib
        = (Item.text none "x").attrib ∧
      ((Item.text none "x").deleteAttrib "office:value").name
        = (Item.text none "x").name ∧
      ((Item.text none "x").deleteAttrib "office:value").children
        = (Item.text none "x").children :=
  ⟨rfl, claim_C9 (Item.text none "x") "office:value" rfl⟩

end Arbeix
